import Mathlib

/-!
Verification of the helmet configuration-resolution pipeline.

The definitions below are a shallow embedding of the JavaScript source:
the lodash deep merge (`_.merge`), the profile-loading middleware, the
CLI `--project` override middleware, `buildImageName`, the `safe` liquid
filter and the `meta` liquid tag. Template tokenization follows the
standard liquid engine the implementation delegates to.
-/

namespace Helmet

/-- JSON-like runtime values of the JavaScript implementation. -/
inductive Value where
  | null : Value
  | bool : Bool → Value
  | num : Int → Value
  | str : String → Value
  | arr : List Value → Value
  | obj : List (String × Value) → Value

/-- Property lookup on an object's field list (first match). -/
def lookupF (k : String) : List (String × Value) → Option Value
  | [] => none
  | (j, v) :: rest => if j = k then some v else lookupF k rest

/-- JavaScript `delete o[k]`: removes the (unique) property named `k`. -/
def eraseF (k : String) : List (String × Value) → List (String × Value)
  | [] => []
  | (j, v) :: rest => if j = k then rest else (j, v) :: eraseF k rest

/-- JavaScript `o[k] = w`: update in place, else append a new property. -/
def setF (k : String) (w : Value) : List (String × Value) → List (String × Value)
  | [] => [(k, w)]
  | (j, v) :: rest => if j = k then (j, w) :: rest else (j, v) :: setF k w rest

/-- A value that lodash treats as non-mergeable (neither object nor array). -/
def isScalarV : Value → Bool
  | Value.obj _ => false
  | Value.arr _ => false
  | _ => true

def getField (v : Value) (k : String) : Option Value :=
  match v with
  | Value.obj fs => lookupF k fs
  | _ => none

def getFieldD (v : Value) (k : String) (d : Value) : Value :=
  (getField v k).getD d

def setField (v : Value) (k : String) (w : Value) : Value :=
  match v with
  | Value.obj fs => Value.obj (setF k w fs)
  | other => other

def removeField (v : Value) (k : String) : Value :=
  match v with
  | Value.obj fs => Value.obj (eraseF k fs)
  | other => other

/-- JavaScript truthiness of an (optional) property value. -/
def truthy : Option Value → Bool
  | none => false
  | some Value.null => false
  | some (Value.bool b) => b
  | some (Value.num n) => n != 0
  | some (Value.str s) => s != ""
  | some (Value.arr _) => true
  | some (Value.obj _) => true

mutual

/-- lodash `_.merge(dst, src)`: plain objects merge recursively, arrays
merge index-wise, any other source value overwrites the destination. -/
def lmerge : Value → Value → Value
  | Value.obj d, Value.obj s => Value.obj (mergeFields d s)
  | Value.arr d, Value.arr s => Value.arr (mergeArr d s)
  | _, s => s
termination_by v _ => sizeOf v
decreasing_by all_goals simp_wf <;> omega

/-- Field-list part of `_.merge`: destination keys (merged) in order,
then the source keys that were not in the destination, in order. -/
def mergeFields : List (String × Value) → List (String × Value) → List (String × Value)
  | [], s => s
  | (k, v) :: d, s =>
    (k, match lookupF k s with
        | some w => lmerge v w
        | none => v) :: mergeFields d (eraseF k s)
termination_by d _ => sizeOf d
decreasing_by all_goals simp_wf <;> omega

/-- Index-wise array merge of `_.merge`; extra elements on either side
are kept. -/
def mergeArr : List Value → List Value → List Value
  | d, [] => d
  | [], s => s
  | x :: d, y :: s => lmerge x y :: mergeArr d s
termination_by d _ => sizeOf d
decreasing_by all_goals simp_wf <;> omega

end

/-!
### Profile resolution (the "Load profile" middleware)
-/

/-- The built-in option defaults injected by the resolver (`defaultValues.options`). -/
def defaultOptionsF : List (String × Value) :=
  [("push", Value.bool true),
   ("cleanup", Value.bool true),
   ("forward", Value.bool true),
   ("repository", Value.str ""),
   ("tag", Value.str "\x7b\x7b git.tag | default: git.commit | short \x7d\x7d\x7b% if git.dirty %\x7d-dirty\x7b% endif %\x7d")]

/-- The built-in defaults merged below every profile (`defaultValues`). -/
def defaultValues : Value :=
  Value.obj [("options", Value.obj defaultOptionsF), ("projects", Value.obj [])]

/-- The `{ name: argv.profile }` object merged on top of the profile. -/
def nameTag (name : String) : Value :=
  Value.obj [("name", Value.str name)]

/-- `_.merge({}, defaultValues, baseProfile, profiles[name], { name })`
followed by `delete argv.profile.default`. -/
def mergedProfile (base named : Value) (name : String) : Value :=
  removeField
    (lmerge (lmerge (lmerge (lmerge (Value.obj []) defaultValues) base) named) (nameTag name))
    "default"

/-- The CLI merges
`profile.options = _.merge(profile.options, argv.option)` and
`profile.metadata = _.merge(profile.metadata, argv.metadata)`. -/
def withCliOptions (p cliOption cliMetadata : Value) : Value :=
  let p1 := setField p "options" (lmerge (getFieldD p "options" (Value.obj [])) cliOption)
  setField p1 "metadata" (lmerge (getFieldD p1 "metadata" (Value.obj [])) cliMetadata)

/-- Character-list prefix test (JavaScript `String.prototype.startsWith`). -/
def startsWithL (p s : List Char) : Bool :=
  List.isPrefixOf p s

/-- The base profile: the first profile whose name starts with the
reserved sigil `$`, or an empty object (with a warning) when absent. -/
def baseOf (profilesF : List (String × Value)) : Value :=
  match profilesF.find? (fun kv => startsWithL "$".data kv.1.data) with
  | some kv => kv.2
  | none => Value.obj []

/-- Reads one key of the resolved profile's `options` section. -/
def getOptions (p : Value) (k : String) : Option Value :=
  match getField p "options" with
  | some o => getField o k
  | none => none

/-- Reads one key of the resolved profile's `metadata` section. -/
def getMetadata (p : Value) (k : String) : Option Value :=
  match getField p "metadata" with
  | some m => getField m k
  | none => none

/-- The merge cascade performed for one resolution, with the base and
named profiles and the CLI override objects given explicitly. -/
def resolvedProfile (bf nf co mo : List (String × Value)) (name : String) : Value :=
  withCliOptions (mergedProfile (Value.obj bf) (Value.obj nf) name) (Value.obj co) (Value.obj mo)

/-- The profile-loading middleware up to the CLI option/metadata merges:
pick the base profile (first `$`-named), require a default profile,
select the requested (or default) name, merge, drop the `default`
marker and apply the CLI `--option`/`--metadata` overrides. -/
def loadProfile (profilesF : List (String × Value)) (requested : Option String)
    (cliOption cliMetadata : Value) : Except String Value :=
  let base := baseOf profilesF
  match profilesF.find? (fun kv => truthy (getField kv.2 "default")) with
  | none => Except.error "No default profile found."
  | some dp =>
    let name := match requested with
      | some r => if r = "" then dp.1 else r
      | none => dp.1
    match lookupF name profilesF with
    | none => Except.error ("Missing profile definition for \"" ++ name ++ "\"")
    | some named => Except.ok (withCliOptions (mergedProfile base named name) cliOption cliMetadata)

/-!
### CLI `--project` override middleware
-/

/-- Limited glob matcher standing for `minimatch(name, pattern, { noglobstar: true })`:
`*` matches any run of non-separator characters, `?` one such character,
everything else is literal (fuel-driven so it evaluates in the kernel). -/
def globFuel : Nat → List Char → List Char → Bool
  | 0, _, _ => false
  | _ + 1, [], s => s.isEmpty
  | f + 1, '*' :: ps, s =>
    globFuel f ps s ||
      (match s with
       | [] => false
       | c :: rest => !(c = '/') && globFuel f ('*' :: ps) rest)
  | f + 1, '?' :: ps, s =>
    (match s with
     | [] => false
     | c :: rest => !(c = '/') && globFuel f ps rest)
  | f + 1, p :: ps, s =>
    (match s with
     | [] => false
     | c :: rest => (p = c) && globFuel f ps rest)

/-- `minimatch(name, pattern, { noglobstar: true })` on strings. -/
def minimatchB (name pattern : String) : Bool :=
  globFuel (pattern.data.length + name.data.length + 1) pattern.data name.data

/-- JavaScript in-place update of one project entry. -/
def updateF (k : String) (f : Value → Value) : List (String × Value) → List (String × Value)
  | [] => []
  | (j, v) :: rest => if j = k then (j, f v) :: rest else (j, v) :: updateF k f rest

/-- One override key applied to every matching project name
(`_.merge(argv.profile.projects[project], argv.project[key])`). -/
def applyPattern (key : String) (v : Value) (names : List String)
    (ps : List (String × Value)) : List (String × Value) :=
  names.foldl (fun acc n => if minimatchB n key then updateF n (fun old => lmerge old v) acc else acc) ps

/-- The hard error raised for an override pattern matching no project. -/
def overrideErr (k : String) : String :=
  "No project name matches \"" ++ k ++ "\" pattern. Check your values."

def applyOverridesGo : List (String × Value) → List String → List (String × Value) →
    Except String (List (String × Value))
  | [], _, ps => Except.ok ps
  | (key, v) :: rest, names, ps =>
    if names.any (fun n => minimatchB n key) then
      applyOverridesGo rest names (applyPattern key v names ps)
    else
      Except.error (overrideErr key)

/-- The "Normalize project settings passed through cli" middleware:
each `--project.<pattern>` entry is glob-matched against every project
name and deep-merged into the matches; a pattern with no match aborts. -/
def applyOverrides (cliProject : List (String × Value)) (ps : List (String × Value)) :
    Except String (List (String × Value)) :=
  applyOverridesGo cliProject (ps.map Prod.fst) ps

/-!
### Image name computation (`buildImageName`)
-/

/-- Character class `[a-zA-Z-_]` of the gcr project-segment regex. -/
def gcrClass (c : Char) : Bool :=
  (decide ('a' ≤ c) && decide (c ≤ 'z')) ||
  (decide ('A' ≤ c) && decide (c ≤ 'Z')) ||
  c = '-' || c = '_'

/-- Result of `s.match(/^gcr\.io\/[a-zA-Z-_]+\//)`, or `[]` when there is
no match (the code then uses the empty string). -/
def gcrPrefixL (s : List Char) : List Char :=
  if startsWithL "gcr.io/".data s then
    let rest := s.drop 7
    let run := rest.takeWhile gcrClass
    if run.isEmpty then []
    else
      match rest.drop run.length with
      | '/' :: _ => "gcr.io/".data ++ run ++ ['/']
      | _ => []
  else []

/-- The characters `[\/._:@]` replaced by underscores in the fallback branch. -/
def isRegChar (c : Char) : Bool :=
  c = '/' || c = '.' || c = '_' || c = ':' || c = '@'

/-- `buildImageName(defaultRepo, originalImage)` from the source. -/
def buildImageName (defaultRepo originalImage : String) : String :=
  if defaultRepo = "" then originalImage
  else if startsWithL "gcr.io".data defaultRepo.data then
    let op := gcrPrefixL originalImage.data
    let dp := gcrPrefixL defaultRepo.data
    if op = dp then String.mk (defaultRepo.data ++ '/' :: originalImage.data.drop op.length)
    else if startsWithL defaultRepo.data originalImage.data then originalImage
    else String.mk (defaultRepo.data ++ '/' :: originalImage.data)
  else
    String.mk (defaultRepo.data ++ '/' ::
      originalImage.data.map (fun c => if isRegChar c then '_' else c))

/-- Number of (possibly overlapping) occurrences of `p` in `s`, one per
start position. -/
def countSubstr (s p : List Char) : Nat :=
  match s with
  | [] => if p.isEmpty then 1 else 0
  | _ :: rest => (if List.isPrefixOf p s then 1 else 0) + countSubstr rest p

/-!
### Liquid filters and tags registered by the source
-/

/-- Character class `[a-zA-Z0-1-_]` of the `safe` filter's regex
(letters, the digits `0` and `1`, `-` and `_`). -/
def safeClass (c : Char) : Bool :=
  (decide ('a' ≤ c) && decide (c ≤ 'z')) ||
  (decide ('A' ≤ c) && decide (c ≤ 'Z')) ||
  c = '0' || c = '1' || c = '-' || c = '_'

/-- The `safe` filter: `(value || '').replace(/^[a-zA-Z0-1-_]/g, '_')`.
The regex is anchored at the start, so at most the first character is
replaced, and only when it belongs to the class. -/
def safeFilter (s : String) : String :=
  match s.data with
  | [] => s
  | c :: rest => if safeClass c then String.mk ('_' :: rest) else s

/-- `shorten`/`short` filter: `value.substr(0, size)` with default 8. -/
def shortFilter (size : Nat) (s : String) : String :=
  String.mk (s.data.take size)

/-!
### Template engine

The implementation delegates template evaluation to the standard liquid
engine. Modelled from the spec: `render(templateString, context)`
tokenizes on output markers and tag markers and evaluates each token;
raw text is emitted unchanged. The `meta` tag body below is translated
from the tag registered in the source.
-/

inductive Tok where
  | raw (s : List Char)
  | out (e : List Char)
  | tag (name : List Char) (args : List Char)

def trimL (s : List Char) : List Char :=
  s.dropWhile (fun c => c = ' ')

def trimChars (s : List Char) : List Char :=
  ((trimL s).reverse.dropWhile (fun c => c = ' ')).reverse

/-- Splits a tag body at the closing `%` `}` marker. -/
def splitTagClose : List Char → Option (List Char × List Char)
  | [] => none
  | '%' :: '\x7d' :: rest => some ([], rest)
  | c :: rest =>
    match splitTagClose rest with
    | none => none
    | some (a, b) => some (c :: a, b)

/-- Splits an output body at the closing `}` `}` marker. -/
def splitOutClose : List Char → Option (List Char × List Char)
  | [] => none
  | '\x7d' :: '\x7d' :: rest => some ([], rest)
  | c :: rest =>
    match splitOutClose rest with
    | none => none
    | some (a, b) => some (c :: a, b)

def flushRaw (acc : List Char) : List Tok :=
  if acc.isEmpty then [] else [Tok.raw acc.reverse]

/-- Parses a tag body into the tag name and its argument text. -/
def mkTag (body : List Char) : Tok :=
  Tok.tag ((trimL body).takeWhile (fun c => !(c = ' ')))
          (trimChars ((trimL body).dropWhile (fun c => !(c = ' '))))

/-- Fuel-driven liquid tokenizer. Modelled from the spec: text up to an
opening marker is raw; an unclosed construct is a parse error. -/
def tokGo : Nat → List Char → List Char → Except String (List Tok)
  | _, acc, [] => Except.ok (flushRaw acc)
  | 0, _, _ => Except.error "tokenize: out of fuel"
  | f + 1, acc, c :: rest =>
    if (c = '\x7b') && (rest.head? == some '\x7b') then
      (match splitOutClose (rest.drop 1) with
       | none => Except.error "output not closed"
       | some (e, rest') =>
         match tokGo f [] rest' with
         | Except.error msg => Except.error msg
         | Except.ok ts => Except.ok (flushRaw acc ++ Tok.out e :: ts))
    else if (c = '\x7b') && (rest.head? == some '%') then
      (match splitTagClose (rest.drop 1) with
       | none => Except.error "tag not closed"
       | some (body, rest') =>
         match tokGo f [] rest' with
         | Except.error msg => Except.error msg
         | Except.ok ts => Except.ok (flushRaw acc ++ mkTag body :: ts))
    else tokGo f (c :: acc) rest

def tokenize (s : List Char) : Except String (List Tok) :=
  tokGo (s.length + 1) [] s

/-- A string containing no template syntax: no output marker and no tag
marker anywhere. -/
def noTemplateMarkers : List Char → Bool
  | [] => true
  | c :: rest =>
    !((c = '\x7b') && ((rest.head? == some '\x7b') || (rest.head? == some '%'))) &&
      noTemplateMarkers rest

/-- Splits a dotted reference path into its segments. -/
def splitOnDotGo (acc : List Char) : List Char → List String
  | [] => [String.mk acc.reverse]
  | '.' :: rest => String.mk acc.reverse :: splitOnDotGo [] rest
  | c :: rest => splitOnDotGo (c :: acc) rest

def splitOnDot (s : List Char) : List String :=
  splitOnDotGo [] s

/-- Dotted traversal of a value, as the liquid expression evaluator does
for `profile.metadata.<path>`. -/
def getPath (v : Value) : List String → Option Value
  | [] => some v
  | k :: rest =>
    match v with
    | Value.obj fs =>
      (match lookupF k fs with
       | some w => getPath w rest
       | none => none)
    | _ => none

/-- How liquid stringifies a resolved value into output (an undefined
or null value renders as the empty string). -/
def jsToString : Value → String
  | Value.null => ""
  | Value.str s => s
  | Value.bool b => if b then "true" else "false"
  | Value.num n => toString n
  | Value.arr _ => ""
  | Value.obj _ => "[object Object]"

/-- The `meta` tag registered in the source: the raw dotted path is
tested with `in` against `context.profile.metadata` (a literal-key
membership test), and on success the value is resolved by evaluating
the dotted expression `profile.metadata.<path>`. -/
def metaRender (ctx : Value) (path : String) : Except String String :=
  match getPath ctx ["profile", "metadata"] with
  | some (Value.obj meta) =>
    if (lookupF path meta).isSome then
      Except.ok
        (match getPath ctx ("profile" :: "metadata" :: splitOnDot path.data) with
         | some v => jsToString v
         | none => "")
    else
      Except.error ("Could not find metadata \"" ++ path ++ "\". Did you miss --metadata." ++ path ++ "?")
  | _ => Except.error "TypeError: cannot read metadata of undefined"

/-- The `param` tag registered in the source: the path must be a key of
the flattened CLI arguments. -/
def paramRender (dotargv : List (String × Value)) (path : String) : Except String String :=
  match lookupF path dotargv with
  | some v => Except.ok (jsToString v)
  | none =>
    Except.error ("Param \"" ++ path ++ "\" is used in this profile. Did you miss --" ++ path ++ "?")

/-- Modelled from the spec: a `{{ ... }}` output resolves a dotted
variable path against the context (filters beyond the resolved value are
outside the claims' scope); an undefined path renders empty. -/
def evalOutput (ctx : Value) (e : List Char) : String :=
  let varPart := trimChars (e.takeWhile (fun c => !(c = '|')))
  match getPath ctx (splitOnDot varPart) with
  | some v => jsToString v
  | none => ""

def renderTok (ctx : Value) (dotargv : List (String × Value)) : Tok → Except String String
  | Tok.raw s => Except.ok (String.mk s)
  | Tok.out e => Except.ok (evalOutput ctx e)
  | Tok.tag nm args =>
    if nm = "meta".data then metaRender ctx (String.mk args)
    else if nm = "param".data then paramRender dotargv (String.mk args)
    else Except.error ("tag \"" ++ String.mk nm ++ "\" not found")

def renderToks (ctx : Value) (dotargv : List (String × Value)) : List Tok → Except String String
  | [] => Except.ok ""
  | t :: rest =>
    match renderTok ctx dotargv t with
    | Except.error e => Except.error e
    | Except.ok s =>
      match renderToks ctx dotargv rest with
      | Except.error e => Except.error e
      | Except.ok r => Except.ok (s ++ r)

/-- `liquid.parseAndRender(template, context)`: tokenize, render every
token, concatenate; the first failure aborts the render. -/
def render (ctx : Value) (dotargv : List (String × Value)) (template : String) :
    Except String String :=
  match tokenize template.data with
  | Except.error e => Except.error e
  | Except.ok toks => renderToks ctx dotargv toks

/-!
## Helper lemmas
-/

theorem lookupF_eraseF_ne {k j : String} (h : k ≠ j) (s : List (String × Value)) :
    lookupF k (eraseF j s) = lookupF k s := by
  induction s with
  | nil => rfl
  | cons hd tl ih =>
    obtain ⟨j', v⟩ := hd
    by_cases hj : j' = j
    · subst hj
      have hk : j' ≠ k := fun hh => h hh.symm
      simp [eraseF, lookupF, hk]
    · by_cases hk : j' = k
      · subst hk
        simp [eraseF, lookupF, h]
      · simp [eraseF, hj, lookupF, hk, ih]

/-- A non-mergeable source value always overwrites the destination. -/
theorem lmerge_scalar_right {w : Value} (hw : isScalarV w = true) (v : Value) :
    lmerge v w = w := by
  cases v <;> cases w <;> simp_all [lmerge, isScalarV]

theorem lmerge_obj_right (v : Value) (s : List (String × Value)) :
    ∃ fs, lmerge v (Value.obj s) = Value.obj fs := by
  cases v
  case obj d => exact ⟨mergeFields d s, by simp [lmerge]⟩
  all_goals exact ⟨s, by simp [lmerge]⟩

/-- Master lookup law of the lodash field merge. -/
theorem lookupF_mergeFields (k : String) (d s : List (String × Value)) :
    lookupF k (mergeFields d s) =
      match lookupF k d with
      | some v => some (match lookupF k s with
                        | some w => lmerge v w
                        | none => v)
      | none => lookupF k s := by
  induction d generalizing s with
  | nil => simp [mergeFields, lookupF]
  | cons hd tl ih =>
    obtain ⟨j, v⟩ := hd
    by_cases hj : j = k
    · subst hj
      simp [mergeFields, lookupF]
    · simp [mergeFields, lookupF, hj, ih, lookupF_eraseF_ne (fun hh => hj hh.symm)]

theorem lookupF_setF_eq (k : String) (w : Value) (fs : List (String × Value)) :
    lookupF k (setF k w fs) = some w := by
  induction fs with
  | nil => simp [setF, lookupF]
  | cons hd tl ih =>
    obtain ⟨j, v⟩ := hd
    by_cases hj : j = k
    · simp [setF, hj, lookupF]
    · simp [setF, hj, lookupF, ih]

theorem lookupF_setF_ne {j k : String} (h : j ≠ k) (w : Value) (fs : List (String × Value)) :
    lookupF j (setF k w fs) = lookupF j fs := by
  induction fs with
  | nil => simp [setF, lookupF, Ne.symm h]
  | cons hd tl ih =>
    obtain ⟨j', v⟩ := hd
    by_cases hj : j' = k
    · subst hj
      have hne : j' ≠ j := fun hh => h (hh ▸ rfl)
      simp [setF, lookupF, hne, ih]
    · simp [setF, hj, lookupF, ih]

theorem getField_setField_ne {j k : String} (h : j ≠ k) (p : Value) (w : Value) :
    getField (setField p k w) j = getField p j := by
  cases p <;> simp [setField, getField, lookupF_setF_ne h]

theorem getField_setField_eq (fs : List (String × Value)) (k : String) (w : Value) :
    getField (setField (Value.obj fs) k w) k = some w := by
  simp [setField, getField, lookupF_setF_eq]

/-- Merging any value with an object on the right, observed through a
field lookup. -/
theorem getField_lmerge_obj (U : Value) (s : List (String × Value)) (k : String) :
    getField (lmerge U (Value.obj s)) k =
      match getField U k with
      | some v => some (match lookupF k s with
                        | some w => lmerge v w
                        | none => v)
      | none => lookupF k s := by
  cases U
  case obj d => simp [lmerge, getField, lookupF_mergeFields]
  all_goals simp [lmerge, getField]

theorem getField_removeField_ne {j k : String} (h : j ≠ k) (p : Value) :
    getField (removeField p k) j = getField p j := by
  cases p <;> simp [removeField, getField, lookupF_eraseF_ne h]

/-- A scalar present in the right-hand object wins the merge. -/
theorem getField_lmerge_obj_scalar {k : String} {v : Value} {m : List (String × Value)}
    (hm : lookupF k m = some v) (hv : isScalarV v = true) (u : Value) :
    getField (lmerge u (Value.obj m)) k = some v := by
  rw [getField_lmerge_obj]
  cases hu : getField u k <;> simp [hm, hu, lmerge_scalar_right hv]

/-- A key absent from the right-hand object is read from the left. -/
theorem getField_lmerge_obj_none {k : String} {m : List (String × Value)}
    (hm : lookupF k m = none) (u : Value) :
    getField (lmerge u (Value.obj m)) k = getField u k := by
  rw [getField_lmerge_obj]
  cases hu : getField u k <;> simp [hm, hu]

theorem lookupF_mem_keys {k : String} {v : Value} {l : List (String × Value)}
    (h : lookupF k l = some v) : k ∈ l.map Prod.fst := by
  induction l with
  | nil => simp [lookupF] at h
  | cons hd tl ih =>
    obtain ⟨j, w⟩ := hd
    by_cases hj : j = k
    · simp [hj]
    · simp only [lookupF, if_neg hj] at h
      simp [ih h]

theorem lookupF_isSome_of_mem {k : String} {v : Value} {l : List (String × Value)}
    (h : (k, v) ∈ l) : ∃ w, lookupF k l = some w := by
  induction l with
  | nil => simp at h
  | cons hd tl ih =>
    obtain ⟨j, w⟩ := hd
    by_cases hj : j = k
    · exact ⟨w, by simp [lookupF, hj]⟩
    · rcases List.mem_cons.mp h with hh | hh
      · cases hh
        exact absurd rfl hj
      · obtain ⟨w', hw'⟩ := ih hh
        exact ⟨w', by simp [lookupF, hj, hw']⟩

theorem lookupF_mergeFields_scalar_src {k : String} {v : Value} {s : List (String × Value)}
    (hs : lookupF k s = some v) (hv : isScalarV v = true) (d : List (String × Value)) :
    lookupF k (mergeFields d s) = some v := by
  rw [lookupF_mergeFields]
  cases hd : lookupF k d <;> simp [hs, hd, lmerge_scalar_right hv]

theorem lookupF_mergeFields_none_src {k : String} {s : List (String × Value)}
    (hs : lookupF k s = none) (d : List (String × Value)) :
    lookupF k (mergeFields d s) = lookupF k d := by
  rw [lookupF_mergeFields]
  cases hd : lookupF k d <;> simp [hs, hd]

/-- The merged profile always carries the selected name. -/
theorem mergedProfile_name (base named : Value) (name : String) :
    getField (mergedProfile base named name) "name" = some (Value.str name) := by
  rw [mergedProfile, getField_removeField_ne (by decide)]
  rw [show nameTag name = Value.obj [("name", Value.str name)] from rfl]
  rw [getField_lmerge_obj]
  cases hu : getField (lmerge (lmerge (lmerge (Value.obj []) defaultValues) base) named) "name" <;>
    simp [hu, lookupF, lmerge_scalar_right (show isScalarV (Value.str name) = true from rfl)]

/-- The CLI option/metadata merges do not touch the profile name. -/
theorem withCliOptions_name (p a b : Value) :
    getField (withCliOptions p a b) "name" = getField p "name" := by
  simp only [withCliOptions]
  rw [getField_setField_ne (by decide), getField_setField_ne (by decide)]

/-- The options section after the whole cascade, for object-shaped sources. -/
theorem mergedProfile_options (bf nf bo no : List (String × Value)) (name : String)
    (hbo : lookupF "options" bf = some (Value.obj bo))
    (hno : lookupF "options" nf = some (Value.obj no)) :
    getField (mergedProfile (Value.obj bf) (Value.obj nf) name) "options" =
      some (Value.obj (mergeFields (mergeFields defaultOptionsF bo) no)) := by
  rw [mergedProfile, getField_removeField_ne (by decide)]
  rw [show nameTag name = Value.obj [("name", Value.str name)] from rfl]
  rw [getField_lmerge_obj, getField_lmerge_obj, getField_lmerge_obj]
  rw [show defaultValues = Value.obj [("options", Value.obj defaultOptionsF),
        ("projects", Value.obj [])] from rfl]
  rw [getField_lmerge_obj]
  simp [getField, lookupF, hbo, hno, lmerge]

/-- The metadata section of the merged profile sees the named profile's
metadata on top. -/
theorem mergedProfile_metadata_named (bf nf nm : List (String × Value)) (name : String)
    (hnm : lookupF "metadata" nf = some (Value.obj nm)) :
    ∃ M, getField (mergedProfile (Value.obj bf) (Value.obj nf) name) "metadata" = some M ∧
      ∀ k v, lookupF k nm = some v → isScalarV v = true → getField M k = some v := by
  rw [mergedProfile, getField_removeField_ne (by decide)]
  rw [show nameTag name = Value.obj [("name", Value.str name)] from rfl]
  rw [getField_lmerge_obj, getField_lmerge_obj]
  cases hu : getField (lmerge (lmerge (Value.obj []) defaultValues) (Value.obj bf)) "metadata" with
  | none =>
    refine ⟨Value.obj nm, by simp [hu, hnm, lookupF], ?_⟩
    intro k v hk _
    simp [getField, hk]
  | some u =>
    refine ⟨lmerge u (Value.obj nm), by simp [hu, hnm, lookupF], ?_⟩
    intro k v hk hv
    exact getField_lmerge_obj_scalar hk hv _

/-- The options section after the CLI `--option` merge. -/
theorem withCliOptions_options {p : Value} {o : List (String × Value)}
    (co : Value) (mo : Value)
    (hp : getField p "options" = some (Value.obj o)) :
    getField (withCliOptions p co mo) "options" = some (lmerge (Value.obj o) co) := by
  cases p with
  | obj pf =>
    simp only [withCliOptions]
    rw [getField_setField_ne (by decide)]
    simp only [getField] at hp
    simp [setField, getField, lookupF_setF_eq, getFieldD, hp]
  | null => simp [getField] at hp
  | bool b => simp [getField] at hp
  | num n => simp [getField] at hp
  | str s => simp [getField] at hp
  | arr xs => simp [getField] at hp

/-- The metadata section after the CLI `--metadata` merge. -/
theorem withCliOptions_metadata {p : Value} {pf : List (String × Value)}
    (co : Value) (mo : Value) (hp : p = Value.obj pf) :
    getField (withCliOptions p co mo) "metadata" =
      some (lmerge (getFieldD p "metadata" (Value.obj [])) mo) := by
  subst hp
  simp only [withCliOptions]
  have hstep : getFieldD (setField (Value.obj pf) "options"
        (lmerge (getFieldD (Value.obj pf) "options" (Value.obj [])) co)) "metadata"
        (Value.obj []) =
      getFieldD (Value.obj pf) "metadata" (Value.obj []) := by
    simp [getFieldD, setField, getField,
      lookupF_setF_ne (show ("metadata" : String) ≠ "options" by decide)]
  rw [hstep]
  simp [setField, getField, lookupF_setF_eq]

/-- The merged profile is always an object. -/
theorem mergedProfile_obj (base named : Value) (name : String) :
    ∃ fs, mergedProfile base named name = Value.obj fs := by
  rw [mergedProfile]
  obtain ⟨fs, hfs⟩ := lmerge_obj_right
    (lmerge (lmerge (lmerge (Value.obj []) defaultValues) base) named) [("name", Value.str name)]
  rw [show nameTag name = Value.obj [("name", Value.str name)] from rfl, hfs]
  exact ⟨_, rfl⟩

theorem updateF_map_fst (k : String) (f : Value → Value) (l : List (String × Value)) :
    (updateF k f l).map Prod.fst = l.map Prod.fst := by
  induction l with
  | nil => rfl
  | cons hd tl ih =>
    obtain ⟨j, v⟩ := hd
    by_cases hj : j = k <;> simp [updateF, hj, ih]

theorem lookupF_updateF_eq (k : String) (f : Value → Value) (l : List (String × Value)) :
    lookupF k (updateF k f l) = (lookupF k l).map f := by
  induction l with
  | nil => simp [updateF, lookupF]
  | cons hd tl ih =>
    obtain ⟨j, v⟩ := hd
    by_cases hj : j = k <;> simp [updateF, hj, lookupF, ih]

theorem lookupF_updateF_ne {j k : String} (h : j ≠ k) (f : Value → Value)
    (l : List (String × Value)) :
    lookupF j (updateF k f l) = lookupF j l := by
  induction l with
  | nil => simp [updateF, lookupF]
  | cons hd tl ih =>
    obtain ⟨j', v⟩ := hd
    by_cases hj : j' = k
    · subst hj
      have hne : j' ≠ j := fun hh => h (hh ▸ rfl)
      simp [updateF, lookupF, hne, ih]
    · by_cases hjj : j' = j
      · simp [updateF, hj, lookupF, hjj, h]
      · simp [updateF, hj, lookupF, hjj, ih]

theorem applyPattern_cons (key : String) (v : Value) (n : String) (rest : List String)
    (ps : List (String × Value)) :
    applyPattern key v (n :: rest) ps =
      applyPattern key v rest
        (if minimatchB n key then updateF n (fun old => lmerge old v) ps else ps) := rfl

theorem applyPattern_map_fst (key : String) (v : Value) (names : List String)
    (ps : List (String × Value)) :
    (applyPattern key v names ps).map Prod.fst = ps.map Prod.fst := by
  induction names generalizing ps with
  | nil => rfl
  | cons n rest ih =>
    rw [applyPattern_cons, ih]
    by_cases hm : minimatchB n key <;> simp [hm, updateF_map_fst]

theorem applyPattern_lookup_notmem {pname : String} {names : List String}
    (h : pname ∉ names) (key : String) (v : Value) (ps : List (String × Value)) :
    lookupF pname (applyPattern key v names ps) = lookupF pname ps := by
  induction names generalizing ps with
  | nil => rfl
  | cons n rest ih =>
    have hne : pname ≠ n := fun hh => h (hh ▸ List.mem_cons_self n rest)
    have hnr : pname ∉ rest := fun hh => h (List.mem_cons_of_mem n hh)
    rw [applyPattern_cons, ih hnr]
    by_cases hm : minimatchB n key <;> simp [hm, lookupF_updateF_ne hne]

theorem applyPattern_lookup {pname : String} {names : List String}
    (hnd : names.Nodup) (hmem : pname ∈ names) (key : String) (v : Value)
    (ps : List (String × Value)) :
    lookupF pname (applyPattern key v names ps) =
      if minimatchB pname key then (lookupF pname ps).map (fun old => lmerge old v)
      else lookupF pname ps := by
  induction names generalizing ps with
  | nil => simp at hmem
  | cons n rest ih =>
    rw [applyPattern_cons]
    by_cases hp : pname = n
    · subst hp
      have hnotin : pname ∉ rest := (List.nodup_cons.mp hnd).1
      rw [applyPattern_lookup_notmem hnotin]
      by_cases hm : minimatchB pname key <;> simp [hm, lookupF_updateF_eq]
    · have hmem' : pname ∈ rest := by
        rcases List.mem_cons.mp hmem with hh | hh
        · exact absurd hh hp
        · exact hh
      rw [ih (List.nodup_cons.mp hnd).2 hmem']
      by_cases hm : minimatchB n key <;> simp [hm, lookupF_updateF_ne hp]

theorem applyOverridesGo_lookup (cli : List (String × Value)) :
    ∀ (names : List String) (ps : List (String × Value)) (pname : String) (pv : Value),
      names = ps.map Prod.fst → names.Nodup →
      (∀ kv ∈ cli, names.any (fun n => minimatchB n kv.1) = true) →
      lookupF pname ps = some pv →
      ∃ ps', applyOverridesGo cli names ps = Except.ok ps' ∧
        lookupF pname ps' =
          some (cli.foldl (fun acc kv => if minimatchB pname kv.1 then lmerge acc kv.2 else acc) pv) := by
  induction cli with
  | nil =>
    intro names ps pname pv _ _ _ hlk
    exact ⟨ps, rfl, by simp [hlk]⟩
  | cons hd rest ih =>
    intro names ps pname pv hn hnd hall hlk
    obtain ⟨key, v⟩ := hd
    have hany := hall (key, v) (List.mem_cons_self _ _)
    have hmem : pname ∈ names := hn ▸ lookupF_mem_keys hlk
    have hstep : lookupF pname (applyPattern key v names ps) =
        some (if minimatchB pname key then lmerge pv v else pv) := by
      rw [hn] at hnd hmem ⊢
      rw [← hn] at hnd hmem ⊢
      rw [applyPattern_lookup hnd hmem]
      by_cases hm : minimatchB pname key <;> simp [hm, hlk]
    have hn' : names = (applyPattern key v names ps).map Prod.fst := by
      rw [applyPattern_map_fst, hn]
    obtain ⟨ps', h1, h2⟩ := ih names (applyPattern key v names ps) pname
      (if minimatchB pname key then lmerge pv v else pv) hn' hnd
      (fun kv hkv => hall kv (List.mem_cons_of_mem _ hkv)) hstep
    refine ⟨ps', ?_, ?_⟩
    · simp [applyOverridesGo, hany, h1]
    · rw [h2]
      simp [List.foldl_cons]

theorem applyOverridesGo_err (cli : List (String × Value)) :
    ∀ (names : List String) (ps : List (String × Value)) (fk : String) (fv : Value),
      names = ps.map Prod.fst →
      cli.find? (fun kv => names.all (fun n => !(minimatchB n kv.1))) = some (fk, fv) →
      applyOverridesGo cli names ps = Except.error (overrideErr fk) := by
  induction cli with
  | nil =>
    intro names ps fk fv _ hfind
    simp [List.find?] at hfind
  | cons hd rest ih =>
    intro names ps fk fv hn hfind
    obtain ⟨key, v⟩ := hd
    by_cases hsat : (names.all (fun n => !(minimatchB n key))) = true
    · have hfound : List.find? (fun kv => names.all fun n => !(minimatchB n kv.1))
          ((key, v) :: rest) = some (key, v) := by
        simp [List.find?, hsat]
      rw [hfound] at hfind
      have hkey : key = fk := congrArg Prod.fst (Option.some.inj hfind)
      have hany : names.any (fun n => minimatchB n key) = false := by
        rcases hh : names.any (fun n => minimatchB n key) with _ | _
        · rfl
        · obtain ⟨n, hn', hmn⟩ := List.any_eq_true.mp hh
          have := List.all_eq_true.mp hsat n hn'
          simp [hmn] at this
      subst hkey
      simp [applyOverridesGo, hany]
    · have hsatf : (names.all (fun n => !(minimatchB n key))) = false := by
        revert hsat
        cases names.all (fun n => !(minimatchB n key)) <;> simp
      have hskip : List.find? (fun kv => names.all fun n => !(minimatchB n kv.1))
          ((key, v) :: rest) =
          List.find? (fun kv => names.all fun n => !(minimatchB n kv.1)) rest := by
        simp [List.find?, hsatf]
      rw [hskip] at hfind
      have hany : names.any (fun n => minimatchB n key) = true := by
        rcases hh : names.any (fun n => minimatchB n key) with _ | _
        · exfalso
          apply hsat
          apply List.all_eq_true.mpr
          intro n hn'
          have hmf : ¬ minimatchB n key = true := by
            intro hmn
            have hcontra : names.any (fun n => minimatchB n key) = true :=
              List.any_eq_true.mpr ⟨n, hn', hmn⟩
            rw [hcontra] at hh
            cases hh
          simp [Bool.not_eq_true] at hmf
          simp [hmf]
        · rfl
      rw [show applyOverridesGo ((key, v) :: rest) names ps =
            applyOverridesGo rest names (applyPattern key v names ps) from by
          simp [applyOverridesGo, hany]]
      exact ih names (applyPattern key v names ps) fk fv
        (by rw [applyPattern_map_fst, hn]) hfind

theorem isPrefixOf_through_sep {p : List Char} {c : Char} (hc : c ∉ p) :
    ∀ (t b : List Char), List.isPrefixOf p (t ++ c :: b) = List.isPrefixOf p t := by
  induction p with
  | nil => intro t b; simp [List.isPrefixOf]
  | cons q p' ih =>
    have hcq : c ≠ q := fun hh => hc (by rw [hh]; exact List.mem_cons_self q p')
    have hc' : c ∉ p' := fun hh => hc (List.mem_cons_of_mem q hh)
    intro t b
    cases t with
    | nil =>
      have hqc : (q == c) = false := by
        simp [beq_iff_eq]
        exact fun hh => hcq hh.symm
      simp [List.isPrefixOf, hqc]
    | cons y t' =>
      simp [List.isPrefixOf, ih hc']

theorem countSubstr_pos {p s : List Char} (hp : p ≠ []) (h : List.isPrefixOf p s = true) :
    1 ≤ countSubstr s p := by
  cases s with
  | nil =>
    cases p with
    | nil => exact absurd rfl hp
    | cons q p' => simp [List.isPrefixOf] at h
  | cons c rest => simp [countSubstr, h]

theorem countSubstr_append_sep {p : List Char} {c : Char} (hp : p ≠ []) (hc : c ∉ p) :
    ∀ (a b : List Char), countSubstr (a ++ c :: b) p = countSubstr a p + countSubstr b p := by
  intro a b
  induction a with
  | nil =>
    have hpre : List.isPrefixOf p (c :: b) = false := by
      have h0 := isPrefixOf_through_sep hc [] b
      simp only [List.nil_append] at h0
      rw [h0]
      cases p with
      | nil => exact absurd rfl hp
      | cons q p' => simp [List.isPrefixOf]
    have hpe : p.isEmpty = false := by
      cases p with
      | nil => exact absurd rfl hp
      | cons q p' => rfl
    simp [countSubstr, hpre, hpe]
  | cons x a' ih =>
    have hpre : List.isPrefixOf p (x :: (a' ++ c :: b)) = List.isPrefixOf p (x :: a') := by
      have h0 := isPrefixOf_through_sep hc (x :: a') b
      simpa using h0
    simp only [List.cons_append, countSubstr]
    simp only [hpre, ih]
    cases hx : List.isPrefixOf p (x :: a') <;> simp [hx] <;> omega

theorem tokGo_plain : ∀ (s : List Char) (f : Nat) (acc : List Char),
    s.length ≤ f → noTemplateMarkers s = true →
    tokGo f acc s = Except.ok (flushRaw (s.reverse ++ acc)) := by
  intro s
  induction s with
  | nil =>
    intro f acc _ _
    cases f <;> simp [tokGo]
  | cons c rest ih =>
    intro f acc hf hnm
    have hlen : rest.length + 1 ≤ f := by simpa using hf
    obtain ⟨f', rfl⟩ : ∃ f', f = f' + 1 := ⟨f - 1, by omega⟩
    have hx : ((c = '\x7b') && ((rest.head? == some '\x7b') || (rest.head? == some '%'))) = false ∧
        noTemplateMarkers rest = true := by
      rcases hb : ((c = '\x7b') && ((rest.head? == some '\x7b') || (rest.head? == some '%'))) with _ | _
      · refine ⟨rfl, ?_⟩
        rw [noTemplateMarkers, hb] at hnm
        simpa using hnm
      · rw [noTemplateMarkers, hb] at hnm
        simp at hnm
    have h1 : ((c = '\x7b') && (rest.head? == some '\x7b')) = false := by
      have := hx.1
      rcases hb1 : (decide (c = '\x7b')) with _ | _ <;>
        rcases hb2 : (rest.head? == some '\x7b') with _ | _ <;>
          simp_all
    have h2 : ((c = '\x7b') && (rest.head? == some '%')) = false := by
      have := hx.1
      rcases hb1 : (decide (c = '\x7b')) with _ | _ <;>
        rcases hb2 : (rest.head? == some '%') with _ | _ <;>
          simp_all
    rw [show tokGo (f' + 1) acc (c :: rest) = tokGo f' (c :: acc) rest from by
      simp [tokGo, h1, h2]]
    rw [ih f' (c :: acc) (by simp [List.length_cons] at hf; omega) hx.2]
    simp

theorem renderToks_flushRaw (ctx : Value) (dv : List (String × Value)) (l : List Char) :
    renderToks ctx dv (flushRaw l.reverse) = Except.ok (String.mk l) := by
  cases l with
  | nil => simp [flushRaw, renderToks]
  | cons c rest =>
    have hne : ((c :: rest).reverse).isEmpty = false := by
      cases hh : (c :: rest).reverse with
      | nil => simp at hh
      | cons y ys => simp
    simp [flushRaw, hne, renderToks, renderTok]

theorem isPrefixOf_trans {a b c : List Char} (h1 : List.isPrefixOf a b = true)
    (h2 : List.isPrefixOf b c = true) : List.isPrefixOf a c = true := by
  have p1 : a <+: b := by simpa using h1
  have p2 : b <+: c := by simpa using h2
  simpa using p1.trans p2

theorem lmerge_obj_obj (d s : List (String × Value)) :
    lmerge (Value.obj d) (Value.obj s) = Value.obj (mergeFields d s) := by
  simp [lmerge]

theorem getOptions_of_getField {p : Value} {big : List (String × Value)}
    (h : getField p "options" = some (Value.obj big)) (k : String) :
    getOptions p k = lookupF k big := by
  simp only [getOptions]
  rw [h]
  rfl

theorem getMetadata_of_getField {p M : Value}
    (h : getField p "metadata" = some M) (k : String) :
    getMetadata p k = getField M k := by
  simp only [getMetadata]
  rw [h]

/-!
## Claim theorems
-/

/-- C1: Profile merge precedence is strictly ordered. For any key, a
scalar set by the CLI `--option` object wins over the named profile, the
base profile and the built-in defaults; a scalar set in the named
profile wins over the base profile and the defaults; a scalar set in the
base profile wins over the defaults; a built-in default only survives
when no other source sets the key. The CLI `--metadata` object likewise
wins over the profiles' metadata, and a CLI `--project.<pattern>`
override is applied last, deep-merging its value over the project so
that its scalar leaves win over everything merged before. -/
theorem c1_merge_precedence (bf nf bo no nm co mo : List (String × Value))
    (name k : String) (v : Value)
    (hbo : lookupF "options" bf = some (Value.obj bo))
    (hno : lookupF "options" nf = some (Value.obj no)) :
    ((lookupF k co = some v → isScalarV v = true →
        getOptions (resolvedProfile bf nf co mo name) k = some v) ∧
     (lookupF k co = none → lookupF k no = some v → isScalarV v = true →
        getOptions (resolvedProfile bf nf co mo name) k = some v) ∧
     (lookupF k co = none → lookupF k no = none → lookupF k bo = some v →
        isScalarV v = true →
        getOptions (resolvedProfile bf nf co mo name) k = some v) ∧
     (lookupF k co = none → lookupF k no = none → lookupF k bo = none →
        lookupF k defaultOptionsF = some v →
        getOptions (resolvedProfile bf nf co mo name) k = some v) ∧
     (lookupF k mo = some v → isScalarV v = true →
        getMetadata (resolvedProfile bf nf co mo name) k = some v) ∧
     (lookupF "metadata" nf = some (Value.obj nm) → lookupF k mo = none →
        lookupF k nm = some v → isScalarV v = true →
        getMetadata (resolvedProfile bf nf co mo name) k = some v) ∧
     (∀ (ps : List (String × Value)) (pat : String) (ov pv : List (String × Value))
        (pname j : String) (w : Value),
        (ps.map Prod.fst).Nodup → lookupF pname ps = some (Value.obj pv) →
        minimatchB pname pat = true → lookupF j ov = some w → isScalarV w = true →
        ∃ ps', applyOverrides [(pat, Value.obj ov)] ps = Except.ok ps' ∧
          lookupF pname ps' = some (lmerge (Value.obj pv) (Value.obj ov)) ∧
          lookupF j (mergeFields pv ov) = some w)) := by
  have hmp := mergedProfile_options bf nf bo no name hbo hno
  have hO : getField (resolvedProfile bf nf co mo name) "options" =
      some (Value.obj (mergeFields (mergeFields (mergeFields defaultOptionsF bo) no) co)) := by
    rw [resolvedProfile, withCliOptions_options (Value.obj co) (Value.obj mo) hmp,
      lmerge_obj_obj]
  have hOk : getOptions (resolvedProfile bf nf co mo name) k =
      lookupF k (mergeFields (mergeFields (mergeFields defaultOptionsF bo) no) co) :=
    getOptions_of_getField hO k
  obtain ⟨pf, hpf⟩ := mergedProfile_obj (Value.obj bf) (Value.obj nf) name
  have hMD : getField (resolvedProfile bf nf co mo name) "metadata" =
      some (lmerge (getFieldD (mergedProfile (Value.obj bf) (Value.obj nf) name)
        "metadata" (Value.obj [])) (Value.obj mo)) := by
    rw [resolvedProfile]
    exact withCliOptions_metadata (Value.obj co) (Value.obj mo) hpf
  have hMk : getMetadata (resolvedProfile bf nf co mo name) k =
      getField (lmerge (getFieldD (mergedProfile (Value.obj bf) (Value.obj nf) name)
        "metadata" (Value.obj [])) (Value.obj mo)) k :=
    getMetadata_of_getField hMD k
  refine ⟨?_, ?_, ?_, ?_, ?_, ?_, ?_⟩
  · intro hco hsv
    rw [hOk]
    exact lookupF_mergeFields_scalar_src hco hsv _
  · intro hco hno' hsv
    rw [hOk, lookupF_mergeFields_none_src hco]
    exact lookupF_mergeFields_scalar_src hno' hsv _
  · intro h1 h2 h3 hsv
    rw [hOk, lookupF_mergeFields_none_src h1, lookupF_mergeFields_none_src h2]
    exact lookupF_mergeFields_scalar_src h3 hsv _
  · intro h1 h2 h3 h4
    rw [hOk, lookupF_mergeFields_none_src h1, lookupF_mergeFields_none_src h2,
      lookupF_mergeFields_none_src h3]
    exact h4
  · intro hmo hsv
    rw [hMk]
    exact getField_lmerge_obj_scalar hmo hsv _
  · intro hnm' hmo hk hv
    obtain ⟨M, hM1, hM2⟩ := mergedProfile_metadata_named bf nf nm name hnm'
    have hMval : getFieldD (mergedProfile (Value.obj bf) (Value.obj nf) name)
        "metadata" (Value.obj []) = M := by
      simp [getFieldD, hM1]
    rw [hMk, hMval, getField_lmerge_obj_none hmo]
    exact hM2 k v hk hv
  · intro ps pat ov pv pname j w hnd hlk hmatch hjov hw
    have hmem : pname ∈ ps.map Prod.fst := lookupF_mem_keys hlk
    have hall : ∀ kv ∈ [(pat, Value.obj ov)],
        (ps.map Prod.fst).any (fun n => minimatchB n kv.1) = true := by
      intro kv hkv
      rcases List.mem_singleton.mp hkv with rfl
      exact List.any_eq_true.mpr ⟨pname, hmem, hmatch⟩
    obtain ⟨ps', h1, h2⟩ := applyOverridesGo_lookup [(pat, Value.obj ov)]
      (ps.map Prod.fst) ps pname (Value.obj pv) rfl hnd hall hlk
    refine ⟨ps', h1, ?_, lookupF_mergeFields_scalar_src hjov hw pv⟩
    rw [h2]
    simp [hmatch]

/-- C1 witness: with the CLI setting `--option.push=false` while the
named profile, the base profile and the defaults all set `push`, the
resolved value is the CLI one. -/
theorem c1_witness :
    lookupF "push" [("push", Value.bool false)] = some (Value.bool false) ∧
    getOptions (resolvedProfile
        [("options", Value.obj [("push", Value.bool true), ("cleanup", Value.bool false)])]
        [("options", Value.obj [("push", Value.bool true)]),
         ("metadata", Value.obj [("owner", Value.str "named")])]
        [("push", Value.bool false)] [] "ci") "push" = some (Value.bool false) :=
  ⟨rfl, (c1_merge_precedence
      [("options", Value.obj [("push", Value.bool true), ("cleanup", Value.bool false)])]
      [("options", Value.obj [("push", Value.bool true)]),
       ("metadata", Value.obj [("owner", Value.str "named")])]
      [("push", Value.bool true), ("cleanup", Value.bool false)]
      [("push", Value.bool true)] [("owner", Value.str "named")]
      [("push", Value.bool false)] [] "ci" "push" (Value.bool false) rfl rfl).1 rfl rfl⟩

/-- C2: with no profile flagged `default=true`, resolution fails with
the "No default profile found." error whatever profile name was
requested; with a (first) default profile and no requested name, the
loaded profile carries that profile's name. -/
theorem c2_default_profile_selection (profilesF : List (String × Value)) (cliO cliM : Value) :
    ((∀ kv ∈ profilesF, truthy (getField kv.2 "default") = false) →
        ∀ requested, loadProfile profilesF requested cliO cliM =
          Except.error "No default profile found.") ∧
    (∀ dn dv, profilesF.find? (fun kv => truthy (getField kv.2 "default")) = some (dn, dv) →
        ∃ p, loadProfile profilesF none cliO cliM = Except.ok p ∧
          getField p "name" = some (Value.str dn)) := by
  constructor
  · intro hno requested
    have hfind : profilesF.find? (fun kv => truthy (getField kv.2 "default")) = none := by
      apply List.find?_eq_none.mpr
      intro kv hkv
      simp [hno kv hkv]
    simp [loadProfile, hfind]
  · intro dn dv hfind
    have hmem : (dn, dv) ∈ profilesF := List.mem_of_find?_eq_some hfind
    obtain ⟨named, hnamed⟩ := lookupF_isSome_of_mem hmem
    refine ⟨withCliOptions (mergedProfile (baseOf profilesF) named dn) cliO cliM, ?_, ?_⟩
    · simp [loadProfile, hfind, hnamed]
    · rw [withCliOptions_name, mergedProfile_name]

/-- C2 witness: a document whose second profile `ci` is the only default
is resolved to a profile named `ci` when no name is requested, and the
default-profile search finds it. -/
theorem c2_witness :
    List.find? (fun kv => truthy (getField kv.2 "default"))
        [("$base", Value.obj []), ("ci", Value.obj [("default", Value.bool true)])] =
      some ("ci", Value.obj [("default", Value.bool true)]) ∧
    ∃ p, loadProfile [("$base", Value.obj []), ("ci", Value.obj [("default", Value.bool true)])]
        none (Value.obj []) (Value.obj []) = Except.ok p ∧
      getField p "name" = some (Value.str "ci") :=
  ⟨rfl, (c2_default_profile_selection
      [("$base", Value.obj []), ("ci", Value.obj [("default", Value.bool true)])]
      (Value.obj []) (Value.obj [])).2 "ci" (Value.obj [("default", Value.bool true)]) rfl⟩

/-- C3 counterexample: the spec's second example fails on the code. With
repository prefix "registry.example.com/team" and image
"registry.example.com/team/app", the claim says the image passes
through unchanged, but `buildImageName` only recognizes `gcr.io`
prefixes and instead takes the underscore fallback. -/
theorem c3_counterexample :
    buildImageName "registry.example.com/team" "registry.example.com/team/app" =
      "registry.example.com/team/registry_example_com_team_app" ∧
    ¬ buildImageName "registry.example.com/team" "registry.example.com/team/app" =
      "registry.example.com/team/app" :=
  ⟨rfl, by decide⟩

/-- C3 (amended): the empty-prefix and underscore-fallback examples hold
as stated; the pass-through example holds only for a `gcr.io`
repository prefix, while a non-gcr prefix always takes the underscore
fallback. -/
theorem c3_image_name_examples :
    buildImageName "" "app" = "app" ∧
    buildImageName "myrepo" "org/app:dev" = "myrepo/org_app_dev" ∧
    buildImageName "gcr.io/team" "gcr.io/team/app" = "gcr.io/team/app" ∧
    buildImageName "registry.example.com/team" "registry.example.com/team/app" =
      "registry.example.com/team/registry_example_com_team_app" :=
  ⟨rfl, rfl, rfl, rfl⟩

/-- C4 counterexample: with repository prefix "gcr.io/team-a" and an
image already carrying the different registry prefix "gcr.io/team-b/",
the computed name keeps both prefixes — the registry prefix occurs
twice, so the result does not carry exactly one canonical registry
prefix. -/
theorem c4_counterexample :
    buildImageName "gcr.io/team-a" "gcr.io/team-b/app" = "gcr.io/team-a/gcr.io/team-b/app" ∧
    countSubstr "gcr.io/team-a/gcr.io/team-b/app".data "gcr.io/".data = 2 :=
  ⟨rfl, by decide⟩

/-- C4 (amended): when the original image name carries no registry
prefix at all (no occurrence of "gcr.io"), a gcr repository prefix that
itself contains the registry host once is prepended and the result
carries exactly one occurrence of the registry host — never duplicated.
Duplication does occur when the image already carries a different
gcr.io registry path (see the counterexample). -/
theorem c4_single_registry_occurrence (repo img : String)
    (h1 : startsWithL "gcr.io".data repo.data = true)
    (h2 : countSubstr repo.data "gcr.io".data = 1)
    (h3 : countSubstr img.data "gcr.io".data = 0) :
    buildImageName repo img = String.mk (repo.data ++ '/' :: img.data) ∧
    countSubstr (repo.data ++ '/' :: img.data) "gcr.io".data = 1 := by
  have hrd : repo.data ≠ [] := by
    intro hh
    rw [hh] at h1
    exact absurd h1 (by decide)
  have hrne : ¬ (repo = "") := by
    intro hh
    exact hrd (by rw [hh])
  have hno6 : List.isPrefixOf "gcr.io".data img.data = false := by
    rcases hh : List.isPrefixOf "gcr.io".data img.data with _ | _
    · rfl
    · have := countSubstr_pos (by decide) hh
      omega
  have hno7 : startsWithL "gcr.io/".data img.data = false := by
    rcases hh : List.isPrefixOf "gcr.io/".data img.data with _ | _
    · simp [startsWithL, hh]
    · exfalso
      have h6 : List.isPrefixOf "gcr.io".data img.data = true :=
        isPrefixOf_trans (by decide) hh
      rw [h6] at hno6
      cases hno6
  have hop : gcrPrefixL img.data = [] := by
    simp [gcrPrefixL, hno7]
  constructor
  · simp only [buildImageName]
    rw [if_neg hrne, if_pos h1, hop]
    by_cases hdp : gcrPrefixL repo.data = []
    · rw [hdp]
      simp
    · rw [if_neg (fun hh => hdp hh.symm)]
      have hsw : startsWithL repo.data img.data = false := by
        rcases hh : List.isPrefixOf repo.data img.data with _ | _
        · simp [startsWithL, hh]
        · exfalso
          have h6 : List.isPrefixOf "gcr.io".data img.data = true :=
            isPrefixOf_trans h1 hh
          rw [h6] at hno6
          cases hno6
      rw [if_neg (by simp [hsw])]
  · rw [countSubstr_append_sep (by decide) (by decide), h2, h3]

/-- C4 witness: prefix "gcr.io/proj" on image "app". -/
theorem c4_witness :
    (startsWithL "gcr.io".data "gcr.io/proj".data = true ∧
     countSubstr "gcr.io/proj".data "gcr.io".data = 1 ∧
     countSubstr "app".data "gcr.io".data = 0) ∧
    (buildImageName "gcr.io/proj" "app" = String.mk ("gcr.io/proj".data ++ '/' :: "app".data) ∧
     countSubstr ("gcr.io/proj".data ++ '/' :: "app".data) "gcr.io".data = 1) :=
  ⟨⟨by decide, by decide, by decide⟩,
   c4_single_registry_occurrence "gcr.io/proj" "app" (by decide) (by decide) (by decide)⟩

/-- C5: a CLI `--project.<pattern>` key whose glob matches no existing
project name makes the whole override application fail with a hard
error naming a pattern that matches zero projects; the failure is never
silently skipped. -/
theorem c5_unmatched_pattern_fails (cliP ps : List (String × Value)) (k : String) (v : Value)
    (hk : (k, v) ∈ cliP)
    (hnm : ∀ n ∈ ps.map Prod.fst, minimatchB n k = false) :
    ∃ fk, applyOverrides cliP ps = Except.error (overrideErr fk) ∧
      ∀ n ∈ ps.map Prod.fst, minimatchB n fk = false := by
  have hsat : ((ps.map Prod.fst).all (fun n => !(minimatchB n k))) = true := by
    apply List.all_eq_true.mpr
    intro n hn
    simp [hnm n hn]
  obtain ⟨fkv, hfind⟩ : ∃ fkv, cliP.find?
      (fun kv => (ps.map Prod.fst).all (fun n => !(minimatchB n kv.1))) = some fkv := by
    rcases hh : cliP.find?
        (fun kv => (ps.map Prod.fst).all (fun n => !(minimatchB n kv.1))) with _ | fkv
    · exfalso
      exact absurd hsat (by simpa using List.find?_eq_none.mp hh (k, v) hk)
    · exact ⟨fkv, hh⟩
  obtain ⟨fk, fv⟩ := fkv
  have hprop := List.find?_some hfind
  refine ⟨fk, ?_, ?_⟩
  · exact applyOverridesGo_err cliP (ps.map Prod.fst) ps fk fv rfl hfind
  · intro n hn
    have := List.all_eq_true.mp hprop n hn
    simpa using this

/-- C5 witness: the pattern `z*` matches no project of a single-project
profile and aborts with the error naming it. -/
theorem c5_witness :
    ((("z*", Value.obj []) ∈ ([(("z*" : String), Value.obj [])] : List (String × Value))) ∧
     (∀ n ∈ ([(("api" : String), Value.obj [])] : List (String × Value)).map Prod.fst,
        minimatchB n "z*" = false)) ∧
    ∃ fk, applyOverrides [(("z*" : String), Value.obj [])] [(("api" : String), Value.obj [])] =
        Except.error (overrideErr fk) ∧
      ∀ n ∈ ([(("api" : String), Value.obj [])] : List (String × Value)).map Prod.fst,
        minimatchB n fk = false :=
  ⟨⟨List.mem_singleton.mpr rfl, by decide⟩,
   c5_unmatched_pattern_fails [("z*", Value.obj [])] [("api", Value.obj [])] "z*" (Value.obj [])
     (List.mem_singleton.mpr rfl) (by decide)⟩

/-- C6: when every override pattern matches at least one project name,
override application succeeds and each project ends up as the left fold
of the deep merges of exactly the override values whose pattern matches
its name — so matching projects receive every matching override and
non-matching projects are left completely unchanged. -/
theorem c6_override_deep_merges_matches (cliP ps : List (String × Value))
    (pname : String) (pv : Value)
    (hnd : (ps.map Prod.fst).Nodup)
    (hall : ∀ kv ∈ cliP, ∃ n ∈ ps.map Prod.fst, minimatchB n kv.1 = true)
    (hlk : lookupF pname ps = some pv) :
    ∃ ps', applyOverrides cliP ps = Except.ok ps' ∧
      lookupF pname ps' =
        some (cliP.foldl
          (fun acc kv => if minimatchB pname kv.1 then lmerge acc kv.2 else acc) pv) := by
  have hall' : ∀ kv ∈ cliP, (ps.map Prod.fst).any (fun n => minimatchB n kv.1) = true :=
    fun kv hkv => List.any_eq_true.mpr (hall kv hkv)
  exact applyOverridesGo_lookup cliP (ps.map Prod.fst) ps pname pv rfl hnd hall' hlk

/-- C6 witness: the pattern `a*` matches project `api` but not `web`;
`api` is deep-merged with the override value and `web` is unchanged. -/
theorem c6_witness :
    (((([(("api" : String), Value.obj []), ("web", Value.obj [])] :
          List (String × Value)).map Prod.fst).Nodup) ∧
     (∀ kv ∈ ([(("a*" : String), Value.obj [("x", Value.str "1")])] : List (String × Value)),
        ∃ n ∈ ([(("api" : String), Value.obj []), ("web", Value.obj [])] :
          List (String × Value)).map Prod.fst, minimatchB n kv.1 = true) ∧
     lookupF "web" [(("api" : String), Value.obj []), ("web", Value.obj [])] =
       some (Value.obj [])) ∧
    ∃ ps', applyOverrides [(("a*" : String), Value.obj [("x", Value.str "1")])]
        [(("api" : String), Value.obj []), ("web", Value.obj [])] = Except.ok ps' ∧
      lookupF "web" ps' =
        some (([(("a*" : String), Value.obj [("x", Value.str "1")])] :
          List (String × Value)).foldl
          (fun acc kv => if minimatchB "web" kv.1 then lmerge acc kv.2 else acc)
          (Value.obj [])) :=
  ⟨⟨by decide, by decide, rfl⟩,
   c6_override_deep_merges_matches [("a*", Value.obj [("x", Value.str "1")])]
     [("api", Value.obj []), ("web", Value.obj [])] "web" (Value.obj [])
     (by decide) (by decide) rfl⟩

/-- C7: dotted metadata paths are broken in the code. With profile
metadata `{ build: { commit: "abc" } }` the dotted path `build.commit`
is present (the traversal resolves it to "abc"), yet rendering the
template with the `meta` tag fails with the "Could not find metadata"
error, because the tag's presence check tests the literal dotted string
as a top-level key of the metadata map while only value resolution uses
the dotted traversal. -/
theorem c7_meta_dotted_path_eval :
    getPath (Value.obj [("profile", Value.obj [("metadata",
        Value.obj [("build", Value.obj [("commit", Value.str "abc")])])])])
      ["profile", "metadata", "build", "commit"] = some (Value.str "abc") ∧
    render (Value.obj [("profile", Value.obj [("metadata",
        Value.obj [("build", Value.obj [("commit", Value.str "abc")])])])]) []
      "\x7b% meta build.commit %\x7d" =
      Except.error
        "Could not find metadata \"build.commit\". Did you miss --metadata.build.commit?" :=
  ⟨rfl, rfl⟩

/-- C8: the `safe` filter's regex `/^[a-zA-Z0-1-_]/g` is anchored at the
start and its class is the ALLOWED set, so the code replaces the first
character exactly when it is inside the allowed set. On the README's
own example the filter returns "_eature/154-some-feature" instead of
the documented "feature_154-some-feature". -/
theorem c8_safe_filter_eval :
    safeFilter "feature/154-some-feature" = "_eature/154-some-feature" ∧
    ¬ safeFilter "feature/154-some-feature" = "feature_154-some-feature" :=
  ⟨rfl, by decide⟩

/-- C9: rendering a string containing no template syntax returns the
input unchanged, and rendering is deterministic — the output is a
function of the template and the context alone. -/
theorem c9_render_plain_and_deterministic :
    (∀ (s : String) (ctx : Value) (dv : List (String × Value)),
        noTemplateMarkers s.data = true → render ctx dv s = Except.ok s) ∧
    (∀ (t t' : String) (c c' : Value) (d d' : List (String × Value)),
        t = t' → c = c' → d = d' → render c d t = render c' d' t') := by
  constructor
  · intro s ctx dv h
    have htok : tokGo (s.data.length + 1) [] s.data =
        Except.ok (flushRaw (s.data.reverse ++ [])) :=
      tokGo_plain s.data (s.data.length + 1) [] (by omega) h
    simp only [List.append_nil] at htok
    have hr : render ctx dv s = renderToks ctx dv (flushRaw s.data.reverse) := by
      simp only [render, tokenize]
      rw [htok]
    rw [hr, renderToks_flushRaw]
  · intro t t' c c' d d' h1 h2 h3
    subst h1
    subst h2
    subst h3
    rfl

/-- C9 witness: a plain string renders to itself. -/
theorem c9_witness :
    noTemplateMarkers "hello world".data = true ∧
    render (Value.obj []) [] "hello world" = Except.ok "hello world" :=
  ⟨by decide, c9_render_plain_and_deterministic.1 "hello world" (Value.obj []) [] (by decide)⟩

end Helmet
